import Mathlib

/-!
Verification of the pgmgr migration engine (Go) against its specification.

The Go sources are shallowly embedded: pure string manipulation (regular
expression matches on fixed patterns, version parsing, error formatting)
becomes executable Lean functions on `List Char`; the database is an explicit
state record (`Db`); SQL execution is an oracle assigning each migration an
outcome, so that the control flow of `Migrate`, `Rollback`, `Version` and
`applyMigration` can be traced faithfully.  Machine strings are compared
byte-wise in Go; for the ASCII file names and messages involved here this is
codepoint order on `Char`, which is what `lexLe` below implements.
-/

/-! ### Strings as character lists: basic scanning helpers -/

/-- Does `l` start with `p`?  (Model of a byte-prefix test.) -/
def startsWithL : List Char → List Char → Bool
  | [], _ => true
  | _ :: _, [] => false
  | a :: as, b :: bs => a = b && startsWithL as bs

/-- Model of Go `strings.Contains s sub`: some split of `s` exhibits `sub`. -/
def containsSubstr : List Char → List Char → Bool
  | [], pat => pat.isEmpty
  | c :: rest, pat => startsWithL pat (c :: rest) || containsSubstr rest pat

/-- Go string `<` (byte-wise lexicographic; codepoints for ASCII), as `≤`. -/
def lexLe : List Char → List Char → Bool
  | [], _ => true
  | _ :: _, [] => false
  | a :: as, b :: bs =>
    if a.toNat < b.toNat then true
    else if b.toNat < a.toNat then false
    else lexLe as bs

/-- The sorting relation used to model `ioutil.ReadDir`, which returns
directory entries sorted by file name. -/
def lexLeP (a b : List Char) : Prop := lexLe a b = true

instance : DecidableRel lexLeP := fun a b => by unfold lexLeP; infer_instance

/-! ### ErrorIsLockingError (src/unnamed/part_010, lines 57-62)

The Go code tests the error message against the regular expression
`ERROR:.+(canceling statement due to (statement|lock) timeout|could not
obtain lock on relation)` with `regexp.MatchString`, i.e. it asks whether
some substring of the message consists of the literal `ERROR:`, then one or
more non-newline characters, then one of the three literal phrases. -/

/-- The three alternatives of the locking-error pattern, expanded. -/
def lockPhrases : List (List Char) :=
  [("canceling statement due to statement timeout").data,
   ("canceling statement due to lock timeout").data,
   ("could not obtain lock on relation").data]

/-- Does one of the three phrases start here? -/
def phraseAt (l : List Char) : Bool := lockPhrases.any (fun p => startsWithL p l)

/-- After the literal `ERROR:`: consume one or more non-newline characters
(the `.+` of the pattern), then require a phrase. -/
def afterErrorScan : List Char → Bool
  | [] => false
  | c :: rest => decide (c ≠ '\n') && (phraseAt rest || afterErrorScan rest)

/-- Scan for an occurrence of `ERROR:` followed by `.+` and a phrase. -/
def errScan : List Char → Bool
  | [] => false
  | c :: rest =>
    (startsWithL (("ERROR:").data) (c :: rest) && afterErrorScan (List.drop 6 (c :: rest)))
      || errScan rest

/-- `ErrorIsLockingError` from src/unnamed/part_010: true when the error
message matches the locking-error pattern. -/
def ErrorIsLockingError (s : String) : Bool := errScan s.data

/-- The matcher the spec sentence describes ("messages matching
`canceling statement due to (statement|lock) timeout` or
`could not obtain lock on relation`"): a plain unanchored search for one of
the three phrases, with no `ERROR:` requirement.  Stated from the spec's
words for comparison with `ErrorIsLockingError`. -/
def specLockMatch (s : String) : Bool :=
  lockPhrases.any (fun p => containsSubstr s.data p)

/-! ### RetryUntilNonLockingError (src/unnamed/part_010, lines 64-85)

The Go operation is a stateful closure; it is embedded as a function from
the call index (0-based) to that call's result. -/

/-- Result of one call of the retried operation. -/
inductive CallResult where
  | ok : CallResult
  | err (msg : String) : CallResult
deriving DecidableEq, Repr

/-- The recursion of `RetryUntilNonLockingError`, with the index of the
current call made explicit.  The sleep between retries has no bearing on the
result and is dropped. -/
def retryAux (block : Nat → CallResult) (retryDelay : Int) (retriesRemaining : Int)
    (idx : Nat) : Except String Unit :=
  match block idx with
  | .ok => .ok ()
  | .err m =>
    if ErrorIsLockingError m then
      if retriesRemaining ≤ 0 then .error (("retries exceeded: ") ++ m)
      else retryAux block retryDelay (retriesRemaining - 1) (idx + 1)
    else .error m
termination_by retriesRemaining.toNat
decreasing_by omega

/-- `RetryUntilNonLockingError` from src/unnamed/part_010: run the block,
retry on locking errors while the budget lasts. -/
def RetryUntilNonLockingError (block : Nat → CallResult) (retryDelay : Int)
    (retriesRemaining : Int) : Except String Unit :=
  retryAux block retryDelay retriesRemaining 0

/-- Is an `Except` result a success? -/
def exceptIsOk : Except String Unit → Bool
  | .ok _ => true
  | .error _ => false

/-- Single-call semantics: what `RetryUntilNonLockingError` does when it
never recurses (used to state that a non-positive budget never retries). -/
def singleCall (r : CallResult) : Except String Unit :=
  match r with
  | .ok => .ok ()
  | .err m =>
    if ErrorIsLockingError m then .error (("retries exceeded: ") ++ m) else .error m

/-! ### Migration discovery (src/pgmgr/pgmgr.go, `migrations`, lines 862-879)

`migrations` lists the folder with `ioutil.ReadDir` (which sorts entries by
file name), keeps the names matching `^[0-9]+_.+\.<direction>\.sql$`, and
parses the leading digit run as a 64-bit version (`strconv.ParseInt` clamps
to `MaxInt64` on overflow, and its error is ignored). -/

/-- Digit-run value: `ParseInt` on a string of decimal digits. -/
def valDigits (l : List Char) : Nat := l.foldl (fun acc c => 10 * acc + (c.toNat - 48)) 0

/-- `MaxInt64`, the clamp value of `strconv.ParseInt` for 64 bits. -/
def maxI64 : Nat := 2 ^ 63 - 1

/-- Version of a migration file name: value of its leading digit run,
clamped like `ParseInt`. -/
def parseVersion (name : List Char) : Nat :=
  min (valDigits (name.takeWhile Char.isDigit)) maxI64

/-- Does `name` match `^[0-9]+_.+\.<direction>\.sql$`?  Matching holds
exactly when the name is a nonempty digit run, an underscore, one or more
non-newline characters, and the literal `.<direction>.sql`; the digit run is
forced to be the maximal leading one because an underscore must follow it. -/
def matchesMigration (direction : List Char) (name : List Char) : Bool :=
  let d := name.takeWhile Char.isDigit
  let r := name.dropWhile Char.isDigit
  let suffix := ('.' :: direction) ++ (".sql").data
  !d.isEmpty &&
    match r with
    | '_' :: rest =>
      List.isSuffixOf suffix rest && decide (suffix.length < rest.length) &&
        (rest.take (rest.length - suffix.length)).all (fun c => decide (c ≠ '\n'))
    | _ => false

/-- A single migration: file name and parsed version (src/pgmgr/pgmgr.go,
lines 84-88; version is nonnegative since it is a parsed digit run). -/
structure Migration where
  Filename : List Char
  Version : Nat
deriving DecidableEq, Repr

/-- `Migration.WrapInTransaction` (src/pgmgr/pgmgr.go, lines 90-94): run in a
transaction unless the file name contains `.no_txn.`. -/
def Migration.WrapInTransaction (m : Migration) : Bool :=
  !(containsSubstr m.Filename ((".no_txn.").data))

/-- `migrations` (src/pgmgr/pgmgr.go, lines 862-879): `fs` is the raw
directory listing; `ReadDir` sorts it by name, then matching names are kept
in that order and parsed. -/
def migrations (fs : List (List Char)) (direction : List Char) : List Migration :=
  ((List.insertionSort lexLeP fs).filter (matchesMigration direction)).map
    (fun n => { Filename := n, Version := parseVersion n })

/-! ### The database state and the execution oracle

The version table has a single `version` column, `INTEGER` or
`VARCHAR(255)` per configuration; rows recorded by the tool are decimal
renderings of nonnegative 64-bit values, so the model stores `Nat` rows and
re-renders them where the string column's ordering matters.  `effects`
records, in order, the migration files whose SQL ran and persisted. -/

/-- Database state: whether the tracking table exists, its rows, and the
persisted migration SQL effects. -/
structure Db where
  tableExists : Bool
  rows : List Nat
  effects : List (List Char)
deriving DecidableEq, Repr

/-- The configuration fields the migration engine reads. -/
structure MConfig where
  columnType : String
deriving DecidableEq, Repr

/-- The tagged driver error (`pq.Error`): the byte position is reported as a
decimal string, plus the message and detail texts. -/
structure PqError where
  position : String
  message : String
  detail : String
deriving DecidableEq, Repr

/-- Outcome of executing one migration's SQL and bookkeeping against the
database: success, a driver error from the statement batch, or a driver
error from the version-record insert/delete. -/
inductive ExecOutcome where
  | ok : ExecOutcome
  | sqlError (e : PqError) : ExecOutcome
  | bookkeepingError (e : PqError) : ExecOutcome
deriving DecidableEq, Repr


/-! ### formatPgErr (src/pgmgr/pgmgr.go, lines 664-672)

`pos, _ := strconv.Atoi(pgerr.Position)` then
`lineNo := bytes.Count(contents[:pos], "\n") + 1` and
`columnNo := pos - bytes.LastIndex(contents[:pos], "\n") - 1`. -/

/-- Model of `strconv.Atoi`: optional sign, decimal digits; `0` on a syntax
error (the error is discarded by the caller), clamped to the 64-bit range on
overflow. -/
def atoiModel (s : String) : Int :=
  match s.data with
  | [] => 0
  | c :: rest =>
    if c = '+' then
      (if !rest.isEmpty && rest.all Char.isDigit then ((min (valDigits rest) maxI64 : Nat) : Int) else 0)
    else if c = '-' then
      (if !rest.isEmpty && rest.all Char.isDigit then -((min (valDigits rest) (2 ^ 63) : Nat) : Int) else 0)
    else
      (if (c :: rest).all Char.isDigit then ((min (valDigits (c :: rest)) maxI64 : Nat) : Int) else 0)

/-- Model of `bytes.LastIndex l "\n"`: index of the last newline, `-1` when
there is none. -/
def lastIndexNl : List Char → Int
  | [] => -1
  | c :: rest =>
    let r := lastIndexNl rest
    if 0 ≤ r then r + 1 else if c = '\n' then 0 else -1

/-- `formatPgErr` (src/pgmgr/pgmgr.go, lines 664-672).  For a position `pos`
beyond the contents Go may panic on the slice; the claims only concern
positions within the contents, where `take` agrees with the slice. -/
def formatPgErr (contents : List Char) (pgerr : PqError) : String :=
  let pos : Int := atoiModel pgerr.position
  let pre := contents.take pos.toNat
  let lineNo : Nat := pre.count '\n' + 1
  let columnNo : Int := pos - lastIndexNl pre - 1
  ("PGERROR: line ") ++ toString lineNo ++ (" pos ") ++ toString columnNo ++ (": ") ++
    pgerr.message ++ (". ") ++ pgerr.detail

/-! ### applyMigration (src/pgmgr/pgmgr.go, lines 678-740)

Reads the file, opens a session, begins a transaction when
`WrapInTransaction`, executes the SQL, then inserts (direction `UP`) or
deletes (direction `DOWN`) the version record, and commits.  On a driver
error the transaction, if open, is rolled back and the formatted error is
returned: inside a transaction neither the SQL's effects nor the version
record persist; outside one, SQL effects that already ran persist. -/

/-- Migration directions (src/pgmgr/pgmgr.go, lines 21-25). -/
def DOWN : Nat := 0

/-- The `UP` direction constant. -/
def UP : Nat := 1

/-- One migration application against the database, returning the new state
and the error, if any (`none` means the run may continue). -/
def applyMigration (fileOf : List Char → List Char) (oracle : Migration → ExecOutcome)
    (m : Migration) (direction : Nat) (db : Db) : Db × Option String :=
  let contents := fileOf m.Filename
  match oracle m with
  | .ok =>
    let rows' := if direction = UP then m.Version :: db.rows
                 else db.rows.filter (fun v => decide (v ≠ m.Version))
    ({ db with rows := rows', effects := db.effects ++ [m.Filename] }, none)
  | .sqlError e => (db, some (formatPgErr contents e))
  | .bookkeepingError e =>
    if m.WrapInTransaction then (db, some (formatPgErr contents e))
    else ({ db with effects := db.effects ++ [m.Filename] }, some (formatPgErr contents e))

/-! ### Migrate (src/pgmgr/pgmgr.go, lines 196-228) -/

/-- `migrationIsApplied` (src/pgmgr/pgmgr.go, lines 814-832): does a row with
this version exist? -/
def migrationIsApplied (db : Db) (version : Nat) : Bool := decide (version ∈ db.rows)

/-- The loop of `Migrate`: skip applied migrations, apply pending ones, halt
on the first failure.  Returns the migrations applied in order, the final
database state, and the halting error, if any. -/
def migrateSeq (fileOf : List Char → List Char) (oracle : Migration → ExecOutcome) :
    List Migration → Db → List Migration × Db × Option String
  | [], db => ([], db, none)
  | m :: rest, db =>
    if migrationIsApplied db m.Version then migrateSeq fileOf oracle rest db
    else
      match applyMigration fileOf oracle m UP db with
      | (db', none) =>
        let r := migrateSeq fileOf oracle rest db'
        (m :: r.1, r.2.1, r.2.2)
      | (db', some e) => ([], db', some e)

/-- `Migrate` (src/pgmgr/pgmgr.go, lines 196-228): discover `up` migrations,
ensure the tracking table exists (`Initialize`), then run the loop. -/
def Migrate (fileOf : List Char → List Char) (oracle : Migration → ExecOutcome)
    (fs : List (List Char)) (db : Db) : List Migration × Db × Option String :=
  let ms := migrations fs (("up").data)
  migrateSeq fileOf oracle ms { db with tableExists := true }

/-! ### Version (src/pgmgr/pgmgr.go, lines 563-590)

`SELECT COALESCE(MAX(version)::text, '-1')`: for an `INTEGER` column `MAX`
is the numeric maximum; for a `VARCHAR` column it is the collation-wise
(lexicographic) maximum of the stored decimal strings, which the scan then
parses back into an `int64`. -/

/-- Big-endian decimal digits of `n` (fuel-bounded so that it computes by
structural recursion; any fuel of at least `n` suffices). -/
def decReprCore : Nat → Nat → List Char
  | 0, _ => []
  | fuel + 1, n =>
    if n = 0 then [] else decReprCore fuel (n / 10) ++ [Nat.digitChar (n % 10)]

/-- Decimal rendering of a stored version (`strconv.FormatInt`, base 10,
nonnegative). -/
def decRepr (n : Nat) : List Char :=
  if n = 0 then [('0')] else decReprCore n n

/-- The row whose decimal rendering is lexicographically maximal — the
varchar-column `MAX`. -/
def lexArgmax : List Nat → Option Nat
  | [] => none
  | v :: rest =>
    some (match lexArgmax rest with
          | none => v
          | some w => if lexLe (decRepr v) (decRepr w) then w else v)

/-- String-column `MAX(version)` parsed back, `-1` when the table is empty. -/
def strMaxVersion (rows : List Nat) : Int :=
  match lexArgmax rows with
  | none => -1
  | some v => (v : Int)

/-- Folding numeric `MAX` over the rows. -/
def natMaxFold : List Nat → Int → Int
  | [], a => a
  | v :: rest, a => natMaxFold rest (max a (v : Int))

/-- Integer-column `MAX(version)` with the `COALESCE` sentinel. -/
def natMax (rows : List Nat) : Int := natMaxFold rows (-1)

/-- The value `Version` computes when all its queries succeed. -/
def versionCore (c : MConfig) (db : Db) : Int :=
  if db.tableExists = false then -1
  else if c.columnType = ("string" : String) then strMaxVersion db.rows
  else natMax db.rows

/-- Which of `Version`'s database interactions fails, if any: opening the
connection, the table-existence check, or the `MAX(version)` row scan. -/
inductive VersionFailure where
  | noFail : VersionFailure
  | connFail (e : String) : VersionFailure
  | tableCheckFail (e : String) : VersionFailure
  | scanFail (e : String) : VersionFailure
deriving DecidableEq, Repr

/-- `Version` (src/pgmgr/pgmgr.go, lines 563-590): `-1` with the error when
the connection or the table check fails; on a scan failure the `int64` still
holds its zero value `0`, which is returned with the error. -/
def Version (c : MConfig) (db : Db) (vfail : VersionFailure) : Int × Option String :=
  match vfail with
  | .connFail e => (-1, some e)
  | .tableCheckFail e => (-1, some e)
  | .scanFail e => (0, some e)
  | .noFail => (versionCore c db, none)

/-! ### Rollback (src/pgmgr/pgmgr.go, lines 231-262)

`v, _ := Version(c)` — the error is discarded — then the first discovered
`down` migration whose version equals `v` is applied with direction `DOWN`;
when none matches, `Rollback` returns `nil` having changed nothing. -/

/-- `Rollback`: revert at most one migration. -/
def Rollback (c : MConfig) (fileOf : List Char → List Char)
    (oracle : Migration → ExecOutcome) (vfail : VersionFailure)
    (fs : List (List Char)) (db : Db) : Db × Option String :=
  let ms := migrations fs (("down").data)
  let v := (Version c db vfail).1
  match ms.find? (fun m => decide ((m.Version : Int) = v)) with
  | none => (db, none)
  | some m => applyMigration fileOf oracle m DOWN db

/-- The all-success execution oracle. -/
def okOracle : Migration → ExecOutcome := fun _ => .ok

/-! ## Lemmas about the string scanners -/

theorem startsWithL_iff (p l : List Char) : startsWithL p l = true ↔ ∃ t, l = p ++ t := by
  induction p generalizing l with
  | nil => simp [startsWithL]
  | cons a as ih =>
    cases l with
    | nil => simp [startsWithL]
    | cons b bs =>
      simp only [startsWithL, Bool.and_eq_true, decide_eq_true_eq, ih, List.cons_append,
        List.cons.injEq]
      constructor
      · rintro ⟨rfl, t, rfl⟩
        exact ⟨t, rfl, rfl⟩
      · rintro ⟨t, rfl, rfl⟩
        exact ⟨rfl, t, rfl⟩

theorem containsSubstr_iff (l pat : List Char) :
    containsSubstr l pat = true ↔ ∃ a t, l = a ++ pat ++ t := by
  induction l with
  | nil =>
    simp only [containsSubstr, List.isEmpty_iff]
    constructor
    · rintro rfl; exact ⟨[], [], rfl⟩
    · rintro ⟨a, t, h⟩
      rcases List.append_eq_nil.mp h.symm with ⟨h1, h2⟩
      exact (List.append_eq_nil.mp h1).2
  | cons c rest ih =>
    simp only [containsSubstr, Bool.or_eq_true, startsWithL_iff, ih]
    constructor
    · rintro (⟨t, h⟩ | ⟨a, t, rfl⟩)
      · exact ⟨[], t, by simpa using h⟩
      · exact ⟨c :: a, t, rfl⟩
    · rintro ⟨a, t, h⟩
      cases a with
      | nil => exact Or.inl ⟨t, by simpa using h⟩
      | cons x xs =>
        rcases (List.cons.injEq ..).mp h with ⟨rfl, h2⟩
        exact Or.inr ⟨xs, t, h2⟩

theorem phraseAt_iff (l : List Char) :
    phraseAt l = true ↔ ∃ p t, p ∈ lockPhrases ∧ l = p ++ t := by
  simp only [phraseAt, List.any_eq_true, startsWithL_iff]
  constructor
  · rintro ⟨p, hp, t, rfl⟩; exact ⟨p, t, hp, rfl⟩
  · rintro ⟨p, t, hp, rfl⟩; exact ⟨p, hp, t, rfl⟩

theorem afterErrorScan_iff (l : List Char) :
    afterErrorScan l = true ↔
      ∃ m p t, l = m ++ p ++ t ∧ m ≠ [] ∧ (∀ c ∈ m, c ≠ '\n') ∧ p ∈ lockPhrases := by
  induction l with
  | nil =>
    simp only [afterErrorScan]
    constructor
    · intro h; exact absurd h (by simp)
    · rintro ⟨m, p, t, h, hm, _, _⟩
      exfalso
      rcases List.append_eq_nil.mp (List.append_eq_nil.mp h.symm).1 with ⟨h1, _⟩
      exact hm h1
  | cons c rest ih =>
    simp only [afterErrorScan, Bool.and_eq_true, decide_eq_true_eq, Bool.or_eq_true,
      phraseAt_iff, ih]
    constructor
    · rintro ⟨hc, ⟨p, t, hp, rfl⟩ | ⟨m, p, t, rfl, hm, hmn, hp⟩⟩
      · exact ⟨[c], p, t, rfl, by simp, by simpa using hc, hp⟩
      · exact ⟨c :: m, p, t, rfl, by simp, by simpa [hc] using hmn, hp⟩
    · rintro ⟨m, p, t, h, hm, hmn, hp⟩
      cases m with
      | nil => exact absurd rfl hm
      | cons x xs =>
        rcases (List.cons.injEq ..).mp (by simpa using h) with ⟨rfl, h2⟩
        refine ⟨hmn c (by simp), ?_⟩
        cases xs with
        | nil => exact Or.inl ⟨p, t, hp, by simpa using h2⟩
        | cons y ys =>
          exact Or.inr ⟨y :: ys, p, t, by simpa using h2, by simp,
            fun d hd => hmn d (List.mem_cons_of_mem _ hd), hp⟩

theorem errScan_iff (l : List Char) :
    errScan l = true ↔
      ∃ a t, l = a ++ ("ERROR:").data ++ t ∧ afterErrorScan t = true := by
  induction l with
  | nil =>
    simp only [errScan]
    constructor
    · intro h; exact absurd h (by simp)
    · rintro ⟨a, t, h, _⟩
      exfalso
      have := List.append_eq_nil.mp h.symm
      rcases List.append_eq_nil.mp this.1 with ⟨_, h2⟩
      simp [String.data] at h2
  | cons c rest ih =>
    simp only [errScan, Bool.or_eq_true, Bool.and_eq_true, startsWithL_iff, ih]
    constructor
    · rintro (⟨⟨t, h⟩, hscan⟩ | ⟨a, t, rfl, hscan⟩)
      · refine ⟨[], t, by simpa using h, ?_⟩
        have hd : List.drop 6 (c :: rest) = t := by
          rw [h]; exact List.drop_left' (by decide)
        rwa [hd] at hscan
      · exact ⟨c :: a, t, rfl, hscan⟩
    · rintro ⟨a, t, h, hscan⟩
      cases a with
      | nil =>
        refine Or.inl ⟨⟨t, by simpa using h⟩, ?_⟩
        have h' : c :: rest = ("ERROR:").data ++ t := by simpa using h
        have hd : List.drop 6 (c :: rest) = t := by
          rw [h']; exact List.drop_left' (by decide)
        rwa [hd]
      | cons x xs =>
        rcases (List.cons.injEq ..).mp (by simpa using h) with ⟨rfl, h2⟩
        exact Or.inr ⟨xs, t, by rw [List.append_assoc]; exact h2, hscan⟩

/-! ## Lemmas about RetryUntilNonLockingError -/

theorem retryAux_nonpos (block : Nat → CallResult) (d N : Int) (idx : Nat) (hN : N ≤ 0) :
    retryAux block d N idx = singleCall (block idx) := by
  rw [retryAux]
  cases block idx with
  | ok => rfl
  | err m =>
    by_cases hl : ErrorIsLockingError m = true
    · simp [singleCall, hl, hN]
    · simp [singleCall, hl]

theorem retryAux_spec (block : Nat → CallResult) (d : Int) (n : Nat) :
    ∀ (N : Int) (idx : Nat),
      (∀ j, j < n → ∃ m, block (idx + j) = .err m ∧ ErrorIsLockingError m = true) →
      block (idx + n) = .ok →
      (exceptIsOk (retryAux block d N idx) = true ↔ (n = 0 ∨ (n : Int) ≤ N)) := by
  induction n with
  | zero =>
    intro N idx _ hok
    rw [retryAux]
    simp only [Nat.add_zero] at hok
    rw [hok]
    simp [exceptIsOk]
  | succ n ih =>
    intro N idx hloc hok
    obtain ⟨m, hm, hlock⟩ := hloc 0 (Nat.succ_pos n)
    simp only [Nat.add_zero] at hm
    rw [retryAux, hm]
    simp only [hlock, if_true]
    by_cases hN : N ≤ 0
    · simp only [hN, if_true, exceptIsOk]
      constructor
      · intro h; exact absurd h (by simp)
      · intro h; exfalso; rcases h with h | h
        · exact Nat.succ_ne_zero n h
        · omega
    · simp only [hN, if_false]
      have hloc' : ∀ j, j < n → ∃ m, block (idx + 1 + j) = .err m ∧ ErrorIsLockingError m = true := by
        intro j hj
        obtain ⟨m', hm', hl'⟩ := hloc (j + 1) (by omega)
        exact ⟨m', by rwa [show idx + (j + 1) = idx + 1 + j by omega] at hm', hl'⟩
      have hok' : block (idx + 1 + n) = .ok := by
        rwa [show idx + (n + 1) = idx + 1 + n by omega] at hok
      rw [ih (N - 1) (idx + 1) hloc' hok']
      constructor
      · intro h; rcases h with h | h <;> [right; right] <;> omega
      · intro h; rcases h with h | h
        · exact absurd h (Nat.succ_ne_zero n)
        · by_cases hn : n = 0
          · exact Or.inl hn
          · right; omega

/-! ## The lexicographic order on file names -/

theorem lexLe_cons_elim {x y : Char} {xs ys : List Char}
    (h : lexLe (x :: xs) (y :: ys) = true) :
    x.toNat < y.toNat ∨ (x.toNat = y.toNat ∧ lexLe xs ys = true) := by
  simp only [lexLe] at h
  split_ifs at h with h1 h2
  · exact Or.inl h1
  · exact Or.inr ⟨by omega, h⟩

theorem lexLe_cons_lt {x y : Char} {xs ys : List Char} (h : x.toNat < y.toNat) :
    lexLe (x :: xs) (y :: ys) = true := by
  simp only [lexLe]
  rw [if_pos h]

theorem lexLe_cons_eq {x y : Char} {xs ys : List Char} (h : x.toNat = y.toNat)
    (hle : lexLe xs ys = true) : lexLe (x :: xs) (y :: ys) = true := by
  simp only [lexLe]
  rw [if_neg (by omega), if_neg (by omega)]
  exact hle

theorem lexLe_refl (l : List Char) : lexLe l l = true := by
  induction l with
  | nil => rfl
  | cons c cs ih => exact lexLe_cons_eq rfl ih

theorem lexLe_total (a b : List Char) : lexLe a b = true ∨ lexLe b a = true := by
  induction a generalizing b with
  | nil => exact Or.inl rfl
  | cons x xs ih =>
    cases b with
    | nil => exact Or.inr rfl
    | cons y ys =>
      rcases Nat.lt_trichotomy x.toNat y.toNat with h | h | h
      · exact Or.inl (lexLe_cons_lt h)
      · rcases ih ys with h' | h'
        · exact Or.inl (lexLe_cons_eq h h')
        · exact Or.inr (lexLe_cons_eq h.symm h')
      · exact Or.inr (lexLe_cons_lt h)

theorem lexLe_trans {a b c : List Char} (h1 : lexLe a b = true) (h2 : lexLe b c = true) :
    lexLe a c = true := by
  induction a generalizing b c with
  | nil => rfl
  | cons x xs ih =>
    cases b with
    | nil => exact absurd h1 (by simp [lexLe])
    | cons y ys =>
      cases c with
      | nil => exact absurd h2 (by simp [lexLe])
      | cons z zs =>
        rcases lexLe_cons_elim h1 with hxy | ⟨hxy, hxs⟩ <;>
          rcases lexLe_cons_elim h2 with hyz | ⟨hyz, hys⟩
        · exact lexLe_cons_lt (by omega)
        · exact lexLe_cons_lt (by omega)
        · exact lexLe_cons_lt (by omega)
        · exact lexLe_cons_eq (by omega) (ih hxs hys)

theorem char_toNat_inj {x y : Char} (h : x.toNat = y.toNat) : x = y := by
  apply Char.ext; apply UInt32.ext; exact h

theorem lexLe_antisymm {a b : List Char} (h1 : lexLe a b = true) (h2 : lexLe b a = true) :
    a = b := by
  induction a generalizing b with
  | nil =>
    cases b with
    | nil => rfl
    | cons y ys => exact absurd h2 (by simp [lexLe])
  | cons x xs ih =>
    cases b with
    | nil => exact absurd h1 (by simp [lexLe])
    | cons y ys =>
      rcases lexLe_cons_elim h1 with hxy | ⟨hxy, hxs⟩ <;>
        rcases lexLe_cons_elim h2 with hyx | ⟨hyx, hys⟩
      · omega
      · omega
      · omega
      · rw [char_toNat_inj hxy, ih hxs hys]

instance : IsTotal (List Char) lexLeP := ⟨lexLe_total⟩

instance : IsTrans (List Char) lexLeP := ⟨fun _ _ _ => lexLe_trans⟩

instance : IsAntisymm (List Char) lexLeP := ⟨fun _ _ => lexLe_antisymm⟩

/-! ## Decimal digit runs: values, bounds, and the lexicographic order -/

theorem valDigits_fold (l : List Char) :
    ∀ acc : Nat, l.foldl (fun acc c => 10 * acc + (c.toNat - 48)) acc =
      acc * 10 ^ l.length + valDigits l := by
  induction l with
  | nil => intro acc; simp [valDigits]
  | cons c cs ih =>
    intro acc
    simp only [List.foldl_cons, List.length_cons, valDigits]
    rw [ih (10 * acc + (c.toNat - 48)), ih (10 * 0 + (c.toNat - 48))]
    ring

theorem valDigits_cons (c : Char) (cs : List Char) :
    valDigits (c :: cs) = (c.toNat - 48) * 10 ^ cs.length + valDigits cs := by
  show List.foldl _ _ _ = _
  simp only [List.foldl_cons]
  rw [valDigits_fold]
  ring

theorem isDigit_toNat {c : Char} (h : c.isDigit = true) :
    48 ≤ c.toNat ∧ c.toNat ≤ 57 := by
  simp only [Char.isDigit, Bool.and_eq_true, decide_eq_true_eq] at h
  obtain ⟨h1, h2⟩ := h
  exact ⟨h1, h2⟩

theorem valDigits_lt (l : List Char) (h : ∀ c ∈ l, c.isDigit = true) :
    valDigits l < 10 ^ l.length := by
  induction l with
  | nil => simp [valDigits]
  | cons c cs ih =>
    rw [valDigits_cons]
    have hc := isDigit_toNat (h c (by simp))
    have hcs := ih (fun d hd => h d (List.mem_cons_of_mem _ hd))
    have h9 : c.toNat - 48 ≤ 9 := by omega
    calc (c.toNat - 48) * 10 ^ cs.length + valDigits cs
        < (c.toNat - 48) * 10 ^ cs.length + 10 ^ cs.length := by omega
      _ = (c.toNat - 48 + 1) * 10 ^ cs.length := by ring
      _ ≤ 10 * 10 ^ cs.length := Nat.mul_le_mul_right _ (by omega)
      _ = 10 ^ (c :: cs).length := by rw [List.length_cons]; ring

/-- Same-length digit runs compare numerically exactly as the lexicographic
order compares them, whatever follows each run. -/
theorem valDigits_le_of_lexLe :
    ∀ (d1 d2 s1 s2 : List Char), d1.length = d2.length →
      (∀ c ∈ d1, c.isDigit = true) → (∀ c ∈ d2, c.isDigit = true) →
      lexLe (d1 ++ s1) (d2 ++ s2) = true → valDigits d1 ≤ valDigits d2 := by
  intro d1
  induction d1 with
  | nil =>
    intro d2 s1 s2 hlen _ _ _
    have : d2 = [] := List.length_eq_zero.mp hlen.symm
    subst this
    exact le_refl _
  | cons x xs ih =>
    intro d2 s1 s2 hlen hd1 hd2 hle
    cases d2 with
    | nil => exact absurd hlen (by simp)
    | cons y ys =>
      have hlen' : xs.length = ys.length := by simpa using hlen
      have hx := isDigit_toNat (hd1 x (by simp))
      have hy := isDigit_toNat (hd2 y (by simp))
      simp only [List.cons_append] at hle
      rcases lexLe_cons_elim hle with hlt | ⟨heq, hrest⟩
      · -- strictly smaller head digit: strictly smaller value
        have hv1 : valDigits xs < 10 ^ xs.length :=
          valDigits_lt xs (fun c hc => hd1 c (List.mem_cons_of_mem _ hc))
        rw [valDigits_cons, valDigits_cons, hlen']
        have hdig : x.toNat - 48 + 1 ≤ y.toNat - 48 := by omega
        refine le_of_lt ?_
        calc (x.toNat - 48) * 10 ^ ys.length + valDigits xs
            < (x.toNat - 48 + 1) * 10 ^ ys.length := by
              rw [hlen'] at hv1; ring_nf; omega
          _ ≤ (y.toNat - 48) * 10 ^ ys.length := Nat.mul_le_mul_right _ hdig
          _ ≤ (y.toNat - 48) * 10 ^ ys.length + valDigits ys := Nat.le_add_right _ _
      · rw [valDigits_cons, valDigits_cons, hlen', heq]
        have := ih ys s1 s2 hlen' (fun c hc => hd1 c (List.mem_cons_of_mem _ hc))
          (fun c hc => hd2 c (List.mem_cons_of_mem _ hc)) hrest
        omega

/-! ## Decimal renderings of stored versions -/

theorem digitChar_isDigit : ∀ d, d < 10 → (Nat.digitChar d).isDigit = true := by decide

theorem digitChar_toNat : ∀ d, d < 10 → (Nat.digitChar d).toNat = 48 + d := by decide

theorem decReprCore_all_digit :
    ∀ (fuel n : Nat), ∀ c ∈ decReprCore fuel n, c.isDigit = true := by
  intro fuel
  induction fuel with
  | zero => intro n c hc; exact absurd hc (by simp [decReprCore])
  | succ fuel ih =>
    intro n c hc
    rw [decReprCore] at hc
    by_cases h : n = 0
    · rw [if_pos h] at hc
      exact absurd hc (by simp)
    · rw [if_neg h] at hc
      rcases List.mem_append.mp hc with hcl | hcr
      · exact ih (n / 10) c hcl
      · have : c = Nat.digitChar (n % 10) := by simpa using hcr
        subst this
        exact digitChar_isDigit _ (Nat.mod_lt n (by norm_num))

theorem decRepr_all_digit (n : Nat) : ∀ c ∈ decRepr n, c.isDigit = true := by
  intro c hc
  unfold decRepr at hc
  by_cases h : n = 0
  · rw [if_pos h] at hc
    simp at hc
    subst hc
    decide
  · rw [if_neg h] at hc
    exact decReprCore_all_digit n n c hc

theorem decReprCore_ne_nil (fuel n : Nat) (hn : n ≠ 0) (hf : fuel ≠ 0) :
    decReprCore fuel n ≠ [] := by
  cases fuel with
  | zero => exact absurd rfl hf
  | succ fuel =>
    rw [decReprCore, if_neg hn]
    simp

theorem decRepr_ne_nil (n : Nat) : decRepr n ≠ [] := by
  unfold decRepr
  by_cases h : n = 0
  · rw [if_pos h]; simp
  · rw [if_neg h]
    exact decReprCore_ne_nil n n h h

theorem valDigits_append_singleton (xs : List Char) (c : Char) :
    valDigits (xs ++ [c]) = 10 * valDigits xs + (c.toNat - 48) := by
  show List.foldl _ _ _ = _
  rw [List.foldl_append]
  rfl

theorem valDigits_decReprCore :
    ∀ (fuel n : Nat), n ≤ fuel → valDigits (decReprCore fuel n) = n := by
  intro fuel
  induction fuel with
  | zero =>
    intro n hn
    have : n = 0 := by omega
    subst this
    simp [decReprCore, valDigits]
  | succ fuel ih =>
    intro n hn
    rw [decReprCore]
    by_cases h : n = 0
    · rw [if_pos h, h]
      simp [valDigits]
    · rw [if_neg h, valDigits_append_singleton,
        ih (n / 10) (by omega),
        digitChar_toNat _ (Nat.mod_lt n (by norm_num))]
      omega

theorem valDigits_decRepr (n : Nat) : valDigits (decRepr n) = n := by
  unfold decRepr
  by_cases h : n = 0
  · rw [if_pos h, h]
    simp [valDigits]
  · rw [if_neg h]
    exact valDigits_decReprCore n n (le_refl n)

/-- For rows whose decimal renderings have the same width, the
lexicographic (varchar) comparison agrees with the numeric one. -/
theorem lexLe_decRepr_iff {v w : Nat} (hlen : (decRepr v).length = (decRepr w).length) :
    lexLe (decRepr v) (decRepr w) = true ↔ v ≤ w := by
  constructor
  · intro h
    have := valDigits_le_of_lexLe (decRepr v) (decRepr w) [] [] hlen
      (decRepr_all_digit v) (decRepr_all_digit w) (by simpa using h)
    rwa [valDigits_decRepr, valDigits_decRepr] at this
  · intro hvw
    rcases lexLe_total (decRepr v) (decRepr w) with h | h
    · exact h
    · have := valDigits_le_of_lexLe (decRepr w) (decRepr v) [] [] hlen.symm
        (decRepr_all_digit w) (decRepr_all_digit v) (by simpa using h)
      rw [valDigits_decRepr, valDigits_decRepr] at this
      have : v = w := le_antisymm hvw this
      subst this
      exact lexLe_refl _

/-! ## MAX(version): integer and varchar columns -/

theorem lexArgmax_mem : ∀ (rows : List Nat) (v : Nat), lexArgmax rows = some v → v ∈ rows := by
  intro rows
  induction rows with
  | nil => intro v h; exact absurd h (by simp [lexArgmax])
  | cons a rest ih =>
    intro v h
    rw [lexArgmax] at h
    cases hm : lexArgmax rest with
    | none =>
      rw [hm] at h
      simp at h
      subst h
      exact List.mem_cons_self _ _
    | some w =>
      rw [hm] at h
      simp only [Option.some.injEq] at h
      by_cases hc : lexLe (decRepr a) (decRepr w) = true
      · rw [if_pos hc] at h
        subst h
        exact List.mem_cons_of_mem _ (ih _ hm)
      · rw [if_neg hc] at h
        subst h
        exact List.mem_cons_self _ _

theorem lexArgmax_eq_none : ∀ rows : List Nat, lexArgmax rows = none ↔ rows = [] := by
  intro rows
  cases rows with
  | nil => simp [lexArgmax]
  | cons a rest => simp [lexArgmax]

theorem lexArgmax_ge (rows : List Nat)
    (hw : ∀ a ∈ rows, ∀ b ∈ rows, (decRepr a).length = (decRepr b).length) :
    ∀ v, lexArgmax rows = some v → ∀ w ∈ rows, w ≤ v := by
  induction rows with
  | nil => intro v h; exact absurd h (by simp [lexArgmax])
  | cons a rest ih =>
    intro v h w hwmem
    rw [lexArgmax] at h
    cases hm : lexArgmax rest with
    | none =>
      rw [hm] at h
      simp only [Option.some.injEq] at h
      subst h
      have : rest = [] := (lexArgmax_eq_none rest).mp hm
      subst this
      rcases List.mem_cons.mp hwmem with rfl | hwm
      · exact le_refl _
      · exact absurd hwm (by simp)
    | some u =>
      rw [hm] at h
      simp only [Option.some.injEq] at h
      have hu : u ∈ rest := lexArgmax_mem rest u hm
      have hrest : ∀ w ∈ rest, w ≤ u :=
        ih (fun x hx y hy => hw x (List.mem_cons_of_mem _ hx) y (List.mem_cons_of_mem _ hy)) u hm
      have hau : (decRepr a).length = (decRepr u).length :=
        hw a (List.mem_cons_self _ _) u (List.mem_cons_of_mem _ hu)
      by_cases hc : lexLe (decRepr a) (decRepr u) = true
      · rw [if_pos hc] at h
        subst h
        have hav : a ≤ u := (lexLe_decRepr_iff hau).mp hc
        rcases List.mem_cons.mp hwmem with rfl | hwm
        · exact hav
        · exact hrest w hwm
      · rw [if_neg hc] at h
        subst h
        have hua : u ≤ a := by
          rcases lexLe_total (decRepr a) (decRepr u) with h' | h'
          · exact absurd h' hc
          · exact (lexLe_decRepr_iff hau.symm).mp h'
        rcases List.mem_cons.mp hwmem with rfl | hwm
        · exact le_refl _
        · exact le_trans (hrest w hwm) hua

theorem natMax_fold_ge_init (rows : List Nat) :
    ∀ a : Int, a ≤ natMaxFold rows a := by
  induction rows with
  | nil => intro a; exact le_refl _
  | cons v rest ih =>
    intro a
    exact le_trans (le_max_left a (v : Int)) (ih (max a (v : Int)))

theorem natMax_fold_ge_mem (rows : List Nat) :
    ∀ (a : Int) (w : Nat), w ∈ rows → (w : Int) ≤ natMaxFold rows a := by
  induction rows with
  | nil => intro a w h; exact absurd h (by simp)
  | cons v rest ih =>
    intro a w h
    rcases List.mem_cons.mp h with rfl | hm
    · exact le_trans (le_max_right a (w : Int)) (natMax_fold_ge_init rest _)
    · exact ih _ w hm

theorem natMax_fold_mem (rows : List Nat) :
    ∀ a : Int, natMaxFold rows a = a ∨ ∃ v ∈ rows, natMaxFold rows a = (v : Int) := by
  induction rows with
  | nil => intro a; exact Or.inl rfl
  | cons v rest ih =>
    intro a
    rcases ih (max a (v : Int)) with h | ⟨u, hu, h⟩
    · rcases max_choice a (v : Int) with hm | hm
      · exact Or.inl (by rw [natMaxFold, h, hm])
      · exact Or.inr ⟨v, by simp, by rw [natMaxFold, h, hm]⟩
    · exact Or.inr ⟨u, List.mem_cons_of_mem _ hu, by rw [natMaxFold, h]⟩

/-- The integer-column maximum: for nonempty rows it is a recorded row at
least as large as every recorded row. -/
theorem natMax_spec (rows : List Nat) (hne : rows ≠ []) :
    ∃ v ∈ rows, natMax rows = (v : Int) ∧ ∀ w ∈ rows, w ≤ v := by
  unfold natMax
  rcases natMax_fold_mem rows (-1) with h | ⟨v, hv, h⟩
  · exfalso
    obtain ⟨w, hw⟩ := List.exists_mem_of_ne_nil rows hne
    have := natMax_fold_ge_mem rows (-1) w hw
    rw [h] at this
    omega
  · refine ⟨v, hv, h, fun w hw => ?_⟩
    have := natMax_fold_ge_mem rows (-1) w hw
    rw [h] at this
    exact_mod_cast this

/-! ## Structure of the Migrate loop -/

theorem applyMigration_ok (f : List Char → List Char) (o : Migration → ExecOutcome)
    (m : Migration) (dir : Nat) (db : Db) (h : o m = .ok) :
    applyMigration f o m dir db =
      ({ db with
          rows := if dir = UP then m.Version :: db.rows
                  else db.rows.filter (fun v => decide (v ≠ m.Version)),
          effects := db.effects ++ [m.Filename] }, none) := by
  unfold applyMigration
  rw [h]

theorem applyMigration_rows_up (f : List Char → List Char) (o : Migration → ExecOutcome)
    (m : Migration) (db : Db) :
    db.rows ⊆ (applyMigration f o m UP db).1.rows := by
  unfold applyMigration
  cases o m with
  | ok => simp [UP]
  | sqlError e => exact fun a ha => ha
  | bookkeepingError e =>
    by_cases ht : m.WrapInTransaction = true <;> simp [ht]

theorem applyMigration_tableExists (f : List Char → List Char) (o : Migration → ExecOutcome)
    (m : Migration) (dir : Nat) (db : Db) :
    (applyMigration f o m dir db).1.tableExists = db.tableExists := by
  unfold applyMigration
  cases o m with
  | ok => rfl
  | sqlError e => rfl
  | bookkeepingError e => by_cases ht : m.WrapInTransaction = true <;> simp [ht]

theorem migrateSeq_rows_mono (f : List Char → List Char) (o : Migration → ExecOutcome) :
    ∀ (ms : List Migration) (db : Db), db.rows ⊆ (migrateSeq f o ms db).2.1.rows := by
  intro ms
  induction ms with
  | nil => intro db; exact fun a ha => ha
  | cons m rest ih =>
    intro db
    rw [migrateSeq]
    by_cases happ : migrationIsApplied db m.Version = true
    · rw [if_pos happ]; exact ih db
    · rw [if_neg happ]
      rcases ha : applyMigration f o m UP db with ⟨db', oe⟩
      have hsub : db.rows ⊆ db'.rows := by
        have := applyMigration_rows_up f o m db
        rwa [ha] at this
      cases oe with
      | none => exact fun a haa => ih db' (hsub haa)
      | some e => exact hsub

theorem migrateSeq_tableExists (f : List Char → List Char) (o : Migration → ExecOutcome) :
    ∀ (ms : List Migration) (db : Db),
      (migrateSeq f o ms db).2.1.tableExists = db.tableExists := by
  intro ms
  induction ms with
  | nil => intro db; rfl
  | cons m rest ih =>
    intro db
    rw [migrateSeq]
    by_cases happ : migrationIsApplied db m.Version = true
    · rw [if_pos happ]; exact ih db
    · rw [if_neg happ]
      rcases ha : applyMigration f o m UP db with ⟨db', oe⟩
      have hte : db'.tableExists = db.tableExists := by
        have := applyMigration_tableExists f o m UP db
        rwa [ha] at this
      cases oe with
      | none => rw [ih db', hte]
      | some e => exact hte

theorem migrateSeq_all_applied (f : List Char → List Char) (o : Migration → ExecOutcome) :
    ∀ (ms : List Migration) (db : Db), (∀ m ∈ ms, m.Version ∈ db.rows) →
      migrateSeq f o ms db = ([], db, none) := by
  intro ms
  induction ms with
  | nil => intro db _; rfl
  | cons m rest ih =>
    intro db h
    rw [migrateSeq]
    have happ : migrationIsApplied db m.Version = true := by
      unfold migrationIsApplied
      exact decide_eq_true (h m (by simp))
    rw [if_pos happ]
    exact ih db (fun x hx => h x (List.mem_cons_of_mem _ hx))

theorem migrateSeq_complete_applied (f : List Char → List Char) (o : Migration → ExecOutcome) :
    ∀ (ms : List Migration) (db log : _) (db' : Db),
      migrateSeq f o ms db = (log, db', none) → ∀ m ∈ ms, m.Version ∈ db'.rows := by
  intro ms
  induction ms with
  | nil => intro db log db' h m hm; exact absurd hm (by simp)
  | cons m rest ih =>
    intro db log db' h x hx
    rw [migrateSeq] at h
    by_cases happ : migrationIsApplied db m.Version = true
    · rw [if_pos happ] at h
      rcases List.mem_cons.mp hx with rfl | hxm
      · have hmem : x.Version ∈ db.rows := of_decide_eq_true happ
        have := migrateSeq_rows_mono f o rest db
        rw [h] at this
        exact this hmem
      · exact ih db log db' h x hxm
    · rw [if_neg happ] at h
      rcases ha : applyMigration f o m UP db with ⟨db2, oe⟩
      rw [ha] at h
      cases oe with
      | none =>
        dsimp only at h
        rcases hr : migrateSeq f o rest db2 with ⟨l1, db1, e1⟩
        rw [hr] at h
        simp only [Prod.mk.injEq] at h
        obtain ⟨hlog, hdb, he⟩ := h
        subst hdb
        rcases List.mem_cons.mp hx with rfl | hxm
        · -- the version was inserted by the successful application
          have hok : o x = .ok := by
            by_contra hne
            cases hox : o x with
            | ok => exact hne hox
            | sqlError e =>
              rw [applyMigration, hox] at ha
              simp at ha
            | bookkeepingError e =>
              rw [applyMigration, hox] at ha
              by_cases ht : x.WrapInTransaction = true <;> simp [ht] at ha
          rw [applyMigration_ok f o x UP db hok] at ha
          simp only [Prod.mk.injEq] at ha
          have hmem : x.Version ∈ db2.rows := by
            rw [← ha.1]
            simp [UP]
          have := migrateSeq_rows_mono f o rest db2
          rw [hr] at this
          exact this hmem
        · have := ih db2 l1 db1 (by rw [hr, he]) x hxm
          exact this
      | some e => simp at h

theorem migrateSeq_log_mem (f : List Char → List Char) (o : Migration → ExecOutcome) :
    ∀ (ms : List Migration) (db : Db) (x : Migration),
      x ∈ (migrateSeq f o ms db).1 → x ∈ ms := by
  intro ms
  induction ms with
  | nil => intro db x h; exact absurd h (by simp [migrateSeq])
  | cons m rest ih =>
    intro db x h
    rw [migrateSeq] at h
    by_cases happ : migrationIsApplied db m.Version = true
    · rw [if_pos happ] at h
      exact List.mem_cons_of_mem _ (ih db x h)
    · rw [if_neg happ] at h
      rcases ha : applyMigration f o m UP db with ⟨db2, oe⟩
      rw [ha] at h
      cases oe with
      | none =>
        dsimp only at h
        rcases List.mem_cons.mp h with rfl | hxm
        · exact List.mem_cons_self _ _
        · exact List.mem_cons_of_mem _ (ih db2 x hxm)
      | some e => exact absurd h (by simp)

theorem migrateSeq_append_ok (f : List Char → List Char) (o : Migration → ExecOutcome) :
    ∀ (pre rest : List Migration) (db : Db) (logp : List Migration) (dbp : Db),
      migrateSeq f o pre db = (logp, dbp, none) →
      migrateSeq f o (pre ++ rest) db =
        (logp ++ (migrateSeq f o rest dbp).1,
         (migrateSeq f o rest dbp).2.1, (migrateSeq f o rest dbp).2.2) := by
  intro pre
  induction pre with
  | nil =>
    intro rest db logp dbp h
    simp only [migrateSeq, Prod.mk.injEq] at h
    obtain ⟨h1, h2, _⟩ := h
    subst h1; subst h2
    simp
  | cons m pre' ih =>
    intro rest db logp dbp h
    rw [migrateSeq] at h
    rw [List.cons_append, migrateSeq]
    by_cases happ : migrationIsApplied db m.Version = true
    · rw [if_pos happ] at h ⊢
      exact ih rest db logp dbp h
    · rw [if_neg happ] at h ⊢
      rcases ha : applyMigration f o m UP db with ⟨db2, oe⟩
      rw [ha] at h
      cases oe with
      | none =>
        dsimp only at h ⊢
        rcases hr : migrateSeq f o pre' db2 with ⟨l1, db1, e1⟩
        rw [hr] at h
        simp only [Prod.mk.injEq] at h
        obtain ⟨hlog, hdb, he⟩ := h
        subst hlog; subst hdb
        rw [ih rest db2 l1 db1 (by rw [hr, he])]
        simp
      | some e => simp at h

theorem migrateSeq_log_strict (f : List Char → List Char) (o : Migration → ExecOutcome) :
    ∀ (ms : List Migration) (db : Db),
      List.Pairwise (fun m1 m2 : Migration => m1.Version ≤ m2.Version) ms →
      List.Pairwise (fun m1 m2 : Migration => m1.Version < m2.Version)
          (migrateSeq f o ms db).1 ∧
        ∀ x ∈ (migrateSeq f o ms db).1, x.Version ∉ db.rows := by
  intro ms
  induction ms with
  | nil => intro db _; exact ⟨List.Pairwise.nil, by simp [migrateSeq]⟩
  | cons m rest ih =>
    intro db hp
    have hm : ∀ y ∈ rest, m.Version ≤ y.Version := fun y hy =>
      List.rel_of_pairwise_cons hp hy
    have hrest := List.Pairwise.of_cons hp
    rw [migrateSeq]
    by_cases happ : migrationIsApplied db m.Version = true
    · rw [if_pos happ]
      exact ih db hrest
    · rw [if_neg happ]
      rcases ha : applyMigration f o m UP db with ⟨db2, oe⟩
      cases oe with
      | none =>
        dsimp only
        -- a successful application inserts the version
        have hok : o m = .ok := by
          cases hox : o m with
          | ok => rfl
          | sqlError e => rw [applyMigration, hox] at ha; simp at ha
          | bookkeepingError e =>
            rw [applyMigration, hox] at ha
            by_cases ht : m.WrapInTransaction = true <;> simp [ht] at ha
        rw [applyMigration_ok f o m UP db hok] at ha
        simp only [Prod.mk.injEq] at ha
        obtain ⟨hdb2, _⟩ := ha
        have hrows2 : db2.rows = m.Version :: db.rows := by
          rw [← hdb2]; simp [UP]
        obtain ⟨ihstrict, ihfresh⟩ := ih db2 hrest
        constructor
        · refine List.Pairwise.cons ?_ ihstrict
          intro y hy
          have hyrest : y ∈ rest := migrateSeq_log_mem f o rest db2 y hy
          have hle : m.Version ≤ y.Version := hm y hyrest
          have hne : y.Version ≠ m.Version := by
            intro hvv
            exact ihfresh y hy (by rw [hrows2, hvv]; exact List.mem_cons_self _ _)
          omega
        · intro x hx
          rcases List.mem_cons.mp hx with rfl | hxm
          · exact fun hmem => happ (decide_eq_true hmem)
          · intro hmem
            exact ihfresh x hxm (by rw [hrows2]; exact List.mem_cons_of_mem _ hmem)
      | some e => exact ⟨List.Pairwise.nil, by simp⟩

/-! ## Discovery: permutation invariance and version order -/

theorem insertionSort_perm_eq {fs1 fs2 : List (List Char)} (h : fs1.Perm fs2) :
    List.insertionSort lexLeP fs1 = List.insertionSort lexLeP fs2 := by
  refine List.eq_of_perm_of_sorted ?_ (List.sorted_insertionSort lexLeP fs1)
    (List.sorted_insertionSort lexLeP fs2)
  exact ((List.perm_insertionSort lexLeP fs1).trans h).trans
    (List.perm_insertionSort lexLeP fs2).symm

theorem migrations_perm {fs1 fs2 : List (List Char)} (h : fs1.Perm fs2)
    (direction : List Char) : migrations fs1 direction = migrations fs2 direction := by
  unfold migrations
  rw [insertionSort_perm_eq h]

/-- A discovered migration's name comes from the listing and matches the
pattern. -/
theorem migrations_mem {fs : List (List Char)} {direction : List Char} {m : Migration}
    (h : m ∈ migrations fs direction) :
    m.Filename ∈ fs ∧ matchesMigration direction m.Filename = true ∧
      m.Version = parseVersion m.Filename := by
  unfold migrations at h
  obtain ⟨n, hn, rfl⟩ := List.mem_map.mp h
  obtain ⟨hmem, hmatch⟩ := List.mem_filter.mp hn
  refine ⟨?_, hmatch, rfl⟩
  exact ((List.perm_insertionSort lexLeP fs).mem_iff).mp hmem

/-- A matched name's digit run is nonempty and consists of digits. -/
theorem matches_digit_run {direction name : List Char}
    (h : matchesMigration direction name = true) :
    name.takeWhile Char.isDigit ≠ [] ∧
      ∀ c ∈ name.takeWhile Char.isDigit, c.isDigit = true := by
  refine ⟨?_, fun c hc => List.mem_takeWhile_imp hc⟩
  unfold matchesMigration at h
  simp only [Bool.and_eq_true, Bool.not_eq_true'] at h
  intro hnil
  rw [hnil] at h
  simp at h

/-- On a listing whose matching names all carry digit runs of one width, the
discovered versions are non-decreasing (the listing is sorted by name, and
same-width digit runs compare numerically as they do lexicographically). -/
theorem migrations_version_mono (fs : List (List Char)) (direction : List Char)
    (hw : ∀ a ∈ fs, ∀ b ∈ fs, matchesMigration direction a = true →
      matchesMigration direction b = true →
      (a.takeWhile Char.isDigit).length = (b.takeWhile Char.isDigit).length) :
    List.Pairwise (fun m1 m2 : Migration => m1.Version ≤ m2.Version)
      (migrations fs direction) := by
  unfold migrations
  rw [List.pairwise_map]
  have hsorted : List.Pairwise lexLeP (List.insertionSort lexLeP fs) :=
    List.sorted_insertionSort lexLeP fs
  have hfiltered : List.Pairwise lexLeP
      ((List.insertionSort lexLeP fs).filter (matchesMigration direction)) :=
    hsorted.filter _
  refine hfiltered.imp_of_mem ?_
  intro a b ha hb hab
  obtain ⟨hamem, hamatch⟩ := List.mem_filter.mp ha
  obtain ⟨hbmem, hbmatch⟩ := List.mem_filter.mp hb
  have hafs : a ∈ fs := ((List.perm_insertionSort lexLeP fs).mem_iff).mp hamem
  have hbfs : b ∈ fs := ((List.perm_insertionSort lexLeP fs).mem_iff).mp hbmem
  have hlen := hw a hafs b hbfs hamatch hbmatch
  have hda := (matches_digit_run hamatch).2
  have hdb := (matches_digit_run hbmatch).2
  have hval : valDigits (a.takeWhile Char.isDigit) ≤ valDigits (b.takeWhile Char.isDigit) := by
    refine valDigits_le_of_lexLe _ _ (a.dropWhile Char.isDigit) (b.dropWhile Char.isDigit)
      hlen hda hdb ?_
    rw [List.takeWhile_append_dropWhile, List.takeWhile_append_dropWhile]
    exact hab
  unfold parseVersion
  exact min_le_min hval (le_refl _)

/-! ## formatPgErr: position parsing and newline bookkeeping -/

theorem atoiModel_decRepr (p : Nat) (hp : p ≤ maxI64) :
    atoiModel (String.mk (decRepr p)) = (p : Int) := by
  unfold atoiModel
  show (match (String.mk (decRepr p)).data with
        | [] => (0 : Int)
        | c :: rest =>
          if c = '+' then
            (if !rest.isEmpty && rest.all Char.isDigit then
              ((min (valDigits rest) maxI64 : Nat) : Int) else 0)
          else if c = '-' then
            (if !rest.isEmpty && rest.all Char.isDigit then
              -((min (valDigits rest) (2 ^ 63) : Nat) : Int) else 0)
          else
            (if (c :: rest).all Char.isDigit then
              ((min (valDigits (c :: rest)) maxI64 : Nat) : Int) else 0)) = (p : Int)
  have hdata : (String.mk (decRepr p)).data = decRepr p := rfl
  rw [hdata]
  rcases hd : decRepr p with _ | ⟨c, cs⟩
  · exact absurd hd (decRepr_ne_nil p)
  · have hdig : ∀ x ∈ c :: cs, x.isDigit = true := by
      rw [← hd]; exact decRepr_all_digit p
    have hc : c.isDigit = true := hdig c (by simp)
    have hcp : ¬ c = '+' := by
      intro h; rw [h] at hc; exact absurd hc (by decide)
    have hcm : ¬ c = '-' := by
      intro h; rw [h] at hc; exact absurd hc (by decide)
    dsimp only
    rw [if_neg hcp, if_neg hcm]
    have hall : (c :: cs).all Char.isDigit = true := List.all_eq_true.mpr hdig
    rw [if_pos hall, ← hd, valDigits_decRepr, min_eq_left hp]

theorem lastIndexNl_spec (l : List Char) :
    (lastIndexNl l = -1 ∧ ∀ c ∈ l, c ≠ '\n') ∨
      (∃ j : Nat, lastIndexNl l = (j : Int) ∧ j < l.length ∧ l.getD j ' ' = '\n' ∧
        ∀ k, j < k → k < l.length → l.getD k ' ' ≠ '\n') := by
  induction l with
  | nil => exact Or.inl ⟨rfl, by simp⟩
  | cons c rest ih =>
    rcases ih with ⟨h1, h2⟩ | ⟨j, hj, hjlen, hjget, hjlast⟩
    · by_cases hc : c = '\n'
      · refine Or.inr ⟨0, ?_, by simp, by simpa using hc, ?_⟩
        · rw [lastIndexNl, h1]
          simp [hc]
        · intro k hk0 hklen
          rcases Nat.exists_eq_succ_of_ne_zero (by omega : k ≠ 0) with ⟨k', rfl⟩
          rw [List.getD_cons_succ]
          intro hbad
          have hmem : rest.getD k' ' ' ∈ rest := by
            have hlt : k' < rest.length := by simpa using hklen
            rw [List.getD_eq_getElem _ _ hlt]
            exact List.getElem_mem _
          exact h2 _ hmem hbad
      · refine Or.inl ⟨?_, ?_⟩
        · rw [lastIndexNl, h1]
          norm_num [hc]
        · intro x hx
          rcases List.mem_cons.mp hx with rfl | hxm
          · exact hc
          · exact h2 x hxm
    · refine Or.inr ⟨j + 1, ?_, by simpa using hjlen, by simpa using hjget, ?_⟩
      · rw [lastIndexNl, hj]
        have : (0 : Int) ≤ (j : Int) := Int.ofNat_nonneg j
        rw [if_pos this]
        push_cast
        ring
      · intro k hk hklen
        rcases Nat.exists_eq_succ_of_ne_zero (by omega : k ≠ 0) with ⟨k', rfl⟩
        rw [List.getD_cons_succ]
        exact hjlast k' (by omega) (by simpa using hklen)

/-! ## The claims -/

/-- C1, counterexample: with a negative initial budget (-1) and an operation
that succeeds on its first call (k = 1), `RetryUntilNonLockingError` returns
success, although k ≤ N + 1 fails — refuting "a negative initial budget never
succeeds even on the first call". -/
theorem c1_counterexample :
    RetryUntilNonLockingError (fun _ => CallResult.ok) 0 (-1) = Except.ok () ∧
      ¬ ((1 : Int) ≤ (-1) + 1) := by
  constructor
  · rw [RetryUntilNonLockingError, retryAux_nonpos _ _ _ _ (by norm_num)]
    rfl
  · decide

/-- C1 (amended): for an operation that fails with a locking error on every
call before its k-th call and succeeds on its k-th call (k ≥ 1), the retry
loop succeeds iff k = 1 or k ≤ N + 1 — so a negative budget behaves exactly
like a zero budget: the first call's success is still returned.  Moreover a
non-positive budget never retries: the result is the single-call semantics of
the first call alone. -/
theorem c1_retry_budget_amended (block : Nat → CallResult) (retryDelay N : Int) (k : Nat)
    (hk : 1 ≤ k)
    (hfail : ∀ i, i + 1 < k → ∃ m, block i = CallResult.err m ∧ ErrorIsLockingError m = true)
    (hsucc : block (k - 1) = CallResult.ok) :
    (exceptIsOk (RetryUntilNonLockingError block retryDelay N) = true ↔
      (k = 1 ∨ (k : Int) ≤ N + 1)) ∧
    (∀ (b2 : Nat → CallResult) (M : Int), M ≤ 0 →
      RetryUntilNonLockingError b2 retryDelay M = singleCall (b2 0)) := by
  constructor
  · have hl : ∀ j, j < k - 1 → ∃ m, block (0 + j) = .err m ∧ ErrorIsLockingError m = true := by
      intro j hj
      simpa using hfail j (by omega)
    have hok : block (0 + (k - 1)) = .ok := by simpa using hsucc
    rw [RetryUntilNonLockingError, retryAux_spec block retryDelay (k - 1) N 0 hl hok]
    constructor
    · intro h
      rcases h with h | h
      · left; omega
      · by_cases h1 : k = 1
        · exact Or.inl h1
        · right; omega
    · intro h
      rcases h with h | h
      · left; omega
      · by_cases h1 : k = 1
        · left; omega
        · right; omega
  · intro b2 M hM
    rw [RetryUntilNonLockingError]
    exact retryAux_nonpos b2 retryDelay M 0 hM

/-- C1, witness: an operation failing with locking errors on calls 1 and 2
and succeeding on call 3, with budget 10. -/
theorem c1_retry_budget_amended_witness :
    (exceptIsOk (RetryUntilNonLockingError
        (fun i => if i < 2 then CallResult.err ("ERROR: could not obtain lock on relation")
                  else CallResult.ok) 0 10) = true ↔
      ((3 : Nat) = 1 ∨ ((3 : Nat) : Int) ≤ 10 + 1)) ∧
    (∀ (b2 : Nat → CallResult) (M : Int), M ≤ 0 →
      RetryUntilNonLockingError b2 0 M = singleCall (b2 0)) :=
  c1_retry_budget_amended
    (fun i => if i < 2 then CallResult.err ("ERROR: could not obtain lock on relation")
              else CallResult.ok) 0 10 3 (by norm_num)
    (by
      intro i hi
      refine ⟨("ERROR: could not obtain lock on relation"), ?_, by decide⟩
      show (if i < 2 then CallResult.err ("ERROR: could not obtain lock on relation")
            else CallResult.ok) = _
      rw [if_pos (by omega : i < 2)])
    (by decide)

/-- C2, counterexample: the message "could not obtain lock on relation"
matches the phrase the claim quotes, yet `ErrorIsLockingError` rejects it,
because the compiled pattern also demands an `ERROR:` prefix followed by at
least one character. -/
theorem c2_counterexample :
    specLockMatch ("could not obtain lock on relation") = true ∧
      ErrorIsLockingError ("could not obtain lock on relation") = false := by decide

/-- C2 (amended): `ErrorIsLockingError` holds exactly when the message
contains `ERROR:`, then one or more non-newline characters, then one of the
three phrases `canceling statement due to statement timeout`, `canceling
statement due to lock timeout`, `could not obtain lock on relation`.  In
particular the aborted-transaction message and `WARNING:`-prefixed messages
without such an occurrence classify as false. -/
theorem c2_locking_classifier_amended (s : String) :
    ErrorIsLockingError s = true ↔
      ∃ a m p b, s.data = a ++ ("ERROR:").data ++ (m ++ (p ++ b)) ∧ m ≠ [] ∧
        (∀ c ∈ m, c ≠ '\n') ∧ p ∈ lockPhrases := by
  unfold ErrorIsLockingError
  rw [errScan_iff]
  constructor
  · rintro ⟨a, t, hdata, hscan⟩
    obtain ⟨m, p, b, rfl, hm, hmn, hp⟩ := (afterErrorScan_iff t).mp hscan
    refine ⟨a, m, p, b, ?_, hm, hmn, hp⟩
    rw [hdata]
    simp [List.append_assoc]
  · rintro ⟨a, m, p, b, hdata, hm, hmn, hp⟩
    refine ⟨a, m ++ (p ++ b), ?_, ?_⟩
    · rw [hdata]
    · exact (afterErrorScan_iff _).mpr ⟨m, p, b, by simp [List.append_assoc], hm, hmn, hp⟩

/-- C3, counterexample: with up-files `10_b.up.sql` and `9_a.up.sql` on an
empty database, `Migrate` applies version 10 before version 9 — file names
are sorted lexicographically and never re-sorted numerically — refuting
"strictly ascending numeric version order". -/
theorem c3_counterexample :
    ((Migrate (fun _ => ("CREATE TABLE foos;").data) okOracle
        [("10_b.up.sql").data, ("9_a.up.sql").data]
        { tableExists := false, rows := [], effects := [] }).1.map Migration.Version
      = [10, 9]) ∧
    ¬ List.Pairwise (fun a b : Nat => a < b)
        ((Migrate (fun _ => ("CREATE TABLE foos;").data) okOracle
          [("10_b.up.sql").data, ("9_a.up.sql").data]
          { tableExists := false, rows := [], effects := [] }).1.map Migration.Version) := by
  decide

/-- C3 (amended): `Migrate` applies pending migrations in lexicographic
file-name order.  The raw filesystem listing order is indeed irrelevant —
permuting the listing leaves the run unchanged, because entries are sorted
by name — and when every matching file name carries a digit run of one
common width (e.g. fixed-width timestamps), that order is strictly
ascending by version; with mixed-width digit runs a higher version can be
applied before a lower one. -/
theorem c3_apply_order_amended (f : List Char → List Char) (o : Migration → ExecOutcome)
    (fs1 fs2 : List (List Char)) (db : Db) (hperm : fs1.Perm fs2) :
    Migrate f o fs1 db = Migrate f o fs2 db ∧
    ((∀ a ∈ fs1, ∀ b ∈ fs1, matchesMigration (("up").data) a = true →
        matchesMigration (("up").data) b = true →
        (a.takeWhile Char.isDigit).length = (b.takeWhile Char.isDigit).length) →
      List.Pairwise (fun m1 m2 : Migration => m1.Version < m2.Version)
        (Migrate f o fs1 db).1) := by
  constructor
  · unfold Migrate
    rw [migrations_perm hperm]
  · intro hw
    unfold Migrate
    exact (migrateSeq_log_strict f o _ _ (migrations_version_mono fs1 _ hw)).1

/-- C3, witness: two equal-width versions listed in reversed order. -/
theorem c3_apply_order_amended_witness :
    Migrate (fun _ => ("SQL").data) okOracle
        [("2_b.up.sql").data, ("1_a.up.sql").data]
        { tableExists := false, rows := [], effects := [] } =
      Migrate (fun _ => ("SQL").data) okOracle
        [("1_a.up.sql").data, ("2_b.up.sql").data]
        { tableExists := false, rows := [], effects := [] } ∧
    ((∀ a ∈ [("2_b.up.sql").data, ("1_a.up.sql").data],
        ∀ b ∈ [("2_b.up.sql").data, ("1_a.up.sql").data],
        matchesMigration (("up").data) a = true →
        matchesMigration (("up").data) b = true →
        (a.takeWhile Char.isDigit).length = (b.takeWhile Char.isDigit).length) →
      List.Pairwise (fun m1 m2 : Migration => m1.Version < m2.Version)
        (Migrate (fun _ => ("SQL").data) okOracle
          [("2_b.up.sql").data, ("1_a.up.sql").data]
          { tableExists := false, rows := [], effects := [] }).1) :=
  c3_apply_order_amended (fun _ => ("SQL").data) okOracle
    [("2_b.up.sql").data, ("1_a.up.sql").data]
    [("1_a.up.sql").data, ("2_b.up.sql").data]
    { tableExists := false, rows := [], effects := [] } (by decide)

/-- C4: Migrate is idempotent — after a run that completed without error,
running Migrate again with the same file set applies nothing, leaves the
database (version table included) unchanged, and reports no error, whatever
the second run's execution oracle would have done. -/
theorem c4_migrate_idempotent (f : List Char → List Char)
    (o1 o2 : Migration → ExecOutcome) (fs : List (List Char)) (db : Db)
    (log1 : List Migration) (db1 : Db)
    (h : Migrate f o1 fs db = (log1, db1, none)) :
    Migrate f o2 fs db1 = ([], db1, none) := by
  unfold Migrate at h ⊢
  have happly := migrateSeq_complete_applied f o1 (migrations fs (("up").data))
    { db with tableExists := true } log1 db1 h
  have hte : db1.tableExists = true := by
    have hpres := migrateSeq_tableExists f o1 (migrations fs (("up").data))
      { db with tableExists := true }
    rw [h] at hpres
    exact hpres
  have hdb1 : { db1 with tableExists := true } = db1 := by
    cases db1
    dsimp only at hte
    rw [hte]
  rw [hdb1]
  exact migrateSeq_all_applied f o2 _ db1 happly

/-- C4, witness: one up-migration on an empty database; the first run
applies it, the second applies nothing and leaves the state unchanged. -/
theorem c4_migrate_idempotent_witness :
    Migrate (fun _ => ("SQL").data) okOracle [("1_a.up.sql").data]
        { tableExists := true, rows := [1], effects := [("1_a.up.sql").data] } =
      ([], { tableExists := true, rows := [1], effects := [("1_a.up.sql").data] }, none) :=
  c4_migrate_idempotent (fun _ => ("SQL").data) okOracle okOracle
    [("1_a.up.sql").data] { tableExists := false, rows := [], effects := [] }
    [{ Filename := ("1_a.up.sql").data, Version := 1 }]
    { tableExists := true, rows := [1], effects := [("1_a.up.sql").data] } (by decide)

/-- C5, counterexample: with the string column type and recorded versions 9
and 10 (both with down-files), `Version` computes the varchar `MAX`, which is
lexicographic: "9" > "10".  `Rollback` therefore reverts version 9, not the
maximum recorded version 10, although `10_b.down.sql` exists — refuting
"reverts exactly the migration whose version equals the current maximum
recorded version". -/
theorem c5_counterexample :
    Rollback { columnType := ("string") } (fun _ => ("DROP TABLE foos;").data) okOracle
        VersionFailure.noFail [("9_a.down.sql").data, ("10_b.down.sql").data]
        { tableExists := true, rows := [9, 10], effects := [] } =
      ({ tableExists := true, rows := [10], effects := [("9_a.down.sql").data] }, none) ∧
    (10 : Nat) ∈ [9, 10] ∧ ¬ ((10 : Nat) ≤ 9) := by decide

/-- C5 (amended): `Rollback` reverts exactly the first discovered
down-migration whose version equals the value `Version` reports; when no
down-file carries that version it changes nothing and returns success, and
at most one migration is ever rolled back.  Under the integer column type
the reported value is indeed the maximum recorded version (the string
column type compares lexicographically instead). -/
theorem c5_rollback_amended (c : MConfig) (f : List Char → List Char)
    (fs : List (List Char)) (db : Db) :
    ((∀ m ∈ migrations fs (("down").data),
        (m.Version : Int) ≠ (Version c db VersionFailure.noFail).1) →
      Rollback c f okOracle VersionFailure.noFail fs db = (db, none)) ∧
    (∀ m₀, (migrations fs (("down").data)).find?
        (fun m => decide ((m.Version : Int) = (Version c db VersionFailure.noFail).1)) =
          some m₀ →
      m₀ ∈ migrations fs (("down").data) ∧
      (m₀.Version : Int) = (Version c db VersionFailure.noFail).1 ∧
      Rollback c f okOracle VersionFailure.noFail fs db =
        ({ db with rows := db.rows.filter (fun w => decide (w ≠ m₀.Version)), effects := db.effects ++ [m₀.Filename] }, none)) ∧
    (c.columnType ≠ ("string" : String) → db.tableExists = true → db.rows ≠ [] →
      ∃ vm : Nat, (Version c db VersionFailure.noFail).1 = (vm : Int) ∧ vm ∈ db.rows ∧
        ∀ w ∈ db.rows, w ≤ vm) := by
  refine ⟨?_, ?_, ?_⟩
  · intro hno
    have hfind : (migrations fs (("down").data)).find?
        (fun m => decide ((m.Version : Int) = (Version c db VersionFailure.noFail).1)) =
          none :=
      List.find?_eq_none.mpr (fun x hx => by simpa using hno x hx)
    simp only [Rollback]
    rw [hfind]
  · intro m₀ hfind
    refine ⟨List.mem_of_find?_eq_some hfind, ?_, ?_⟩
    · have := List.find?_some hfind
      simpa using this
    · simp only [Rollback]
      rw [hfind]
      dsimp only
      rw [applyMigration_ok f okOracle m₀ DOWN db rfl]
      simp [DOWN, UP]
  · intro hcol hte hne
    obtain ⟨v, hv, heq, hbound⟩ := natMax_spec db.rows hne
    refine ⟨v, ?_, hv, hbound⟩
    show versionCore c db = (v : Int)
    unfold versionCore
    rw [if_neg (by simp [hte]), if_neg hcol]
    exact heq

/-- C6: when a transactional migration's SQL or version bookkeeping fails in
the Migrate loop, the transaction is rolled back — the database state
(effects and version rows) is exactly the state before the migration — and
the run halts with the formatted driver error: migrations later in the
order are not attempted. -/
theorem c6_txn_failure_halts (f : List Char → List Char) (o : Migration → ExecOutcome)
    (pre post : List Migration) (m : Migration) (db : Db)
    (logp : List Migration) (dbp : Db) (e : PqError)
    (htxn : m.WrapInTransaction = true)
    (hfail : o m = .sqlError e ∨ o m = .bookkeepingError e)
    (hpre : migrateSeq f o pre db = (logp, dbp, none))
    (hnot : m.Version ∉ dbp.rows) :
    migrateSeq f o (pre ++ m :: post) db =
      (logp, dbp, some (formatPgErr (f m.Filename) e)) := by
  rw [migrateSeq_append_ok f o pre (m :: post) db logp dbp hpre]
  have happ : ¬ migrationIsApplied dbp m.Version = true := by
    unfold migrationIsApplied
    simpa using hnot
  have happly : applyMigration f o m UP dbp = (dbp, some (formatPgErr (f m.Filename) e)) := by
    unfold applyMigration
    rcases hfail with h | h
    · rw [h]
    · rw [h]
      dsimp only
      rw [if_pos htxn]
  rw [migrateSeq, if_neg happ, happly]
  dsimp only
  simp

/-- C6, witness: a single failing transactional migration on an empty list
prefix. -/
theorem c6_txn_failure_halts_witness :
    migrateSeq (fun _ => ("CREATE TABL oops;").data)
        (fun _ => ExecOutcome.sqlError { position := ("8"), message := ("syntax error"), detail := ("") })
        ([] ++ { Filename := ("1_a.up.sql").data, Version := 1 } :: [])
        { tableExists := true, rows := [], effects := [] } =
      ([], { tableExists := true, rows := [], effects := [] },
        some (formatPgErr ((fun _ : List Char => ("CREATE TABL oops;").data)
            (("1_a.up.sql").data))
          { position := ("8"), message := ("syntax error"), detail := ("") })) :=
  c6_txn_failure_halts (fun _ => ("CREATE TABL oops;").data)
    (fun _ => ExecOutcome.sqlError { position := ("8"), message := ("syntax error"), detail := ("") })
    [] [] { Filename := ("1_a.up.sql").data, Version := 1 }
    { tableExists := true, rows := [], effects := [] }
    [] { tableExists := true, rows := [], effects := [] }
    { position := ("8"), message := ("syntax error"), detail := ("") }
    (by decide) (Or.inl rfl) rfl (by decide)

/-- C7, counterexample: with the string column type and recorded versions 9
and 10, `Version` reports 9 — varchar `MAX` is lexicographic, and "9" > "10"
— not the maximum recorded version 10. -/
theorem c7_counterexample :
    (Version { columnType := ("string") }
        { tableExists := true, rows := [9, 10], effects := [] }
        VersionFailure.noFail).1 = 9 ∧
    (10 : Nat) ∈ [9, 10] ∧ ¬ ((10 : Int) ≤ 9) := by decide

/-- C7 (amended): `Version` returns -1 when the tracking table does not
exist, and -1 when it is empty; with the integer column type (and for the
string column type whenever all stored decimal renderings share one width,
e.g. fixed-width timestamps) it returns the maximum recorded version.  With
the string column type and mixed widths it returns the lexicographic
maximum of the decimal strings instead. -/
theorem c7_version_amended (c : MConfig) (db : Db) :
    (db.tableExists = false → (Version c db VersionFailure.noFail).1 = -1) ∧
    (db.rows = [] → (Version c db VersionFailure.noFail).1 = -1) ∧
    (db.tableExists = true → db.rows ≠ [] →
      (c.columnType ≠ ("string" : String) ∨
        ∀ a ∈ db.rows, ∀ b ∈ db.rows, (decRepr a).length = (decRepr b).length) →
      ∃ v : Nat, (Version c db VersionFailure.noFail).1 = (v : Int) ∧ v ∈ db.rows ∧
        ∀ w ∈ db.rows, w ≤ v) := by
  refine ⟨?_, ?_, ?_⟩
  · intro hte
    show versionCore c db = -1
    unfold versionCore
    rw [if_pos hte]
  · intro hrows
    show versionCore c db = -1
    unfold versionCore
    by_cases hte : db.tableExists = false
    · rw [if_pos hte]
    · rw [if_neg hte]
      by_cases hcol : c.columnType = ("string" : String)
      · rw [if_pos hcol, hrows]
        rfl
      · rw [if_neg hcol, hrows]
        rfl
  · intro hte hne hdisj
    show ∃ v : Nat, versionCore c db = (v : Int) ∧ v ∈ db.rows ∧ ∀ w ∈ db.rows, w ≤ v
    unfold versionCore
    rw [if_neg (by simp [hte])]
    by_cases hcol : c.columnType = ("string" : String)
    · rw [if_pos hcol]
      have hw : ∀ a ∈ db.rows, ∀ b ∈ db.rows, (decRepr a).length = (decRepr b).length := by
        rcases hdisj with h | h
        · exact absurd hcol h
        · exact h
      cases hax : lexArgmax db.rows with
      | none => exact absurd ((lexArgmax_eq_none db.rows).mp hax) hne
      | some v =>
        refine ⟨v, ?_, lexArgmax_mem db.rows v hax, lexArgmax_ge db.rows hw v hax⟩
        unfold strMaxVersion
        rw [hax]
    · rw [if_neg hcol]
      obtain ⟨v, hv, heq, hbound⟩ := natMax_spec db.rows hne
      exact ⟨v, heq, hv, hbound⟩

/-- C8: `WrapInTransaction` is false exactly when the file name contains the
`.no_txn.` marker as a substring. -/
theorem c8_wrap_in_transaction (m : Migration) :
    m.WrapInTransaction = false ↔
      ∃ a b, m.Filename = a ++ ((".no_txn.").data) ++ b := by
  unfold Migration.WrapInTransaction
  rw [Bool.not_eq_false']
  exact containsSubstr_iff _ _

/-- Reading within the first `p` characters is the same on the slice and on
the whole contents. -/
theorem getD_take (l : List Char) (p j : Nat) (hj : j < p) :
    (l.take p).getD j ' ' = l.getD j ' ' := by
  simp [List.getD, List.getElem?_take, hj]

/-- C9: for an error carrying byte offset `p` within the SQL contents,
`formatPgErr` reports the line as one plus the number of newline characters
before `p`, and the column as `p` minus the position of the last newline
before `p` minus one (`-1` standing for "no newline"), followed by the
driver's message and detail. -/
theorem c9_error_line_col (contents : List Char) (p : Nat) (msg detail : String)
    (hlen : p ≤ contents.length) (hcap : p ≤ maxI64) :
    ∃ last : Int,
      ((last = -1 ∧ ∀ j, j < p → contents.getD j ' ' ≠ '\n') ∨
        (∃ jn : Nat, last = (jn : Int) ∧ jn < p ∧ contents.getD jn ' ' = '\n' ∧
          ∀ k, jn < k → k < p → contents.getD k ' ' ≠ '\n')) ∧
      formatPgErr contents
          { position := String.mk (decRepr p), message := msg, detail := detail } =
        ("PGERROR: line ") ++ toString ((contents.take p).count '\n' + 1) ++ (" pos ") ++
          toString ((p : Int) - last - 1) ++ (": ") ++ msg ++ (". ") ++ detail := by
  have hlen' : (contents.take p).length = p := by
    rw [List.length_take]
    exact min_eq_left hlen
  refine ⟨lastIndexNl (contents.take p), ?_, ?_⟩
  · rcases lastIndexNl_spec (contents.take p) with ⟨h1, h2⟩ | ⟨j, hj, hjlen, hjget, hjlast⟩
    · left
      refine ⟨h1, fun j hjp => ?_⟩
      rw [← getD_take contents p j hjp]
      intro hbad
      have hmem : (contents.take p).getD j ' ' ∈ contents.take p := by
        rw [List.getD_eq_getElem _ _ (by omega)]
        exact List.getElem_mem _
      exact h2 _ hmem hbad
    · right
      have hjp : j < p := by omega
      refine ⟨j, hj, hjp, ?_, ?_⟩
      · rw [← getD_take contents p j hjp]
        exact hjget
      · intro k hk hkp
        rw [← getD_take contents p k hkp]
        exact hjlast k hk (by omega)
  · unfold formatPgErr
    dsimp only
    rw [atoiModel_decRepr p hcap, Int.toNat_natCast]

/-- C9, witness: contents "ab\ncd" with offset 4 (line 2, column 1). -/
theorem c9_error_line_col_witness :
    4 ≤ ("ab\ncd").data.length ∧ 4 ≤ maxI64 ∧
      ∃ last : Int,
        ((last = -1 ∧ ∀ j, j < 4 → ("ab\ncd").data.getD j ' ' ≠ '\n') ∨
          (∃ jn : Nat, last = (jn : Int) ∧ jn < 4 ∧ ("ab\ncd").data.getD jn ' ' = '\n' ∧
            ∀ k, jn < k → k < 4 → ("ab\ncd").data.getD k ' ' ≠ '\n')) ∧
        formatPgErr (("ab\ncd").data)
            { position := String.mk (decRepr 4), message := ("m"), detail := ("d") } =
          ("PGERROR: line ") ++ toString ((("ab\ncd").data.take 4).count '\n' + 1) ++
            (" pos ") ++ toString ((4 : Int) - last - 1) ++ (": ") ++ ("m") ++ (". ") ++ ("d") :=
  ⟨by decide, by decide,
    c9_error_line_col (("ab\ncd").data) 4 ("m") ("d") (by decide) (by decide)⟩

/-- C10, counterexample: when the `MAX(version)` scan errors, `Version`
returns the int64 zero value 0 (not the -1 sentinel); with a down-file
`0_x.down.sql` present, `Rollback` discards the error, matches version 0,
runs the down migration (the effects change) and still reports success —
refuting "finds no matching down-migration, performs no change". -/
theorem c10_counterexample :
    Rollback { columnType := ("integer") } (fun _ => ("DROP TABLE zeroes;").data) okOracle
        (VersionFailure.scanFail ("connection reset")) [("0_x.down.sql").data]
        { tableExists := true, rows := [5], effects := [] } =
      ({ tableExists := true, rows := [5], effects := [("0_x.down.sql").data] }, none) ∧
    ({ tableExists := true, rows := [5], effects := [("0_x.down.sql").data] } : Db) ≠
      { tableExists := true, rows := [5], effects := [] } := by decide

/-- C10 (amended): `Rollback` discards `Version`'s error.  When the
connection or the table-existence check fails, the version is the -1
sentinel, no down-file can match (parsed versions are nonnegative), nothing
changes and success is returned.  When the row scan itself fails, the
version is the zero value 0, so only in the absence of a version-0 down-file
is the invocation a no-op returning success. -/
theorem c10_version_error_amended (c : MConfig) (f : List Char → List Char)
    (o : Migration → ExecOutcome) (fs : List (List Char)) (db : Db) (e : String) :
    Rollback c f o (VersionFailure.connFail e) fs db = (db, none) ∧
    Rollback c f o (VersionFailure.tableCheckFail e) fs db = (db, none) ∧
    ((∀ m ∈ migrations fs (("down").data), m.Version ≠ 0) →
      Rollback c f o (VersionFailure.scanFail e) fs db = (db, none)) := by
  refine ⟨?_, ?_, ?_⟩
  · have hfind : (migrations fs (("down").data)).find?
        (fun m => decide ((m.Version : Int) = (Version c db (VersionFailure.connFail e)).1)) =
          none := by
      refine List.find?_eq_none.mpr ?_
      intro x hx
      simp only [decide_eq_true_eq]
      show ¬ ((x.Version : Int) = (-1 : Int))
      omega
    simp only [Rollback]
    rw [hfind]
  · have hfind : (migrations fs (("down").data)).find?
        (fun m => decide ((m.Version : Int) = (Version c db (VersionFailure.tableCheckFail e)).1)) =
          none := by
      refine List.find?_eq_none.mpr ?_
      intro x hx
      simp only [decide_eq_true_eq]
      show ¬ ((x.Version : Int) = (-1 : Int))
      omega
    simp only [Rollback]
    rw [hfind]
  · intro h0
    have hfind : (migrations fs (("down").data)).find?
        (fun m => decide ((m.Version : Int) = (Version c db (VersionFailure.scanFail e)).1)) =
          none := by
      refine List.find?_eq_none.mpr ?_
      intro x hx
      simp only [decide_eq_true_eq]
      show ¬ ((x.Version : Int) = (0 : Int))
      have := h0 x hx
      omega
    simp only [Rollback]
    rw [hfind]
